import Mathlib

/-!
Verification development for the Stern-Brocot tree module (`SternBrocot.h`)
of the DGtal library.

The repository ships only the class header `SternBrocot.h` (declarations and
doc comments); the inline implementation file `SternBrocot.ih` that the header
includes is absent.  The operational definitions below are therefore modelled
from the project specification (`spec.md`) and the semantic descriptions in
the header's own doc comments.

Modelling choices, shared by all definitions:
* A tree `Node` is identified with its continued-fraction coefficient list
  `[u0, ..., uk] : List ℕ` (the spec guarantees one canonical node per
  irreducible fraction; a node's fields `p`, `q`, `u`, `k` are recovered from
  the list).  The `oneOverZero` sentinel is the empty list, `zeroOverOne`
  is `[0]`, and `oneOverOne` is `[1]`.
* A `Fraction` handle is `Option (List ℕ)`: `none` is the null fraction.
* Integer fields use `ℕ` for `p`, `q` and `ℤ` for the signed `Size` values
  (depths and depth offsets), matching `TInteger`/`TSize = int32_t`.
-/

namespace SBT

/-- Modelled from the spec (glossary "Continued fraction", §8): the standard
Euclidean continued-fraction expansion of `p/q`.  `cfE p q` returns
`[u0, ..., uk]` with `p/q = u0 + 1/(u1 + 1/(...))`; for `q = 0` it returns
`[]`, the expansion attached to the `1/0` sentinel. -/
def cfE (p q : ℕ) : List ℕ :=
  if h : q = 0 then [] else (p / q) :: cfE q (p % q)
termination_by q
decreasing_by exact Nat.mod_lt _ (Nat.pos_of_ne_zero h)

@[simp] theorem cfE_zero (p : ℕ) : cfE p 0 = [] := by
  rw [cfE]
  simp

theorem cfE_pos (p q : ℕ) (h : q ≠ 0) : cfE p q = (p / q) :: cfE q (p % q) := by
  rw [cfE]
  simp [h]

/-- A 2x2 matrix of naturals, used as the continuant matrix of a
continued-fraction coefficient list. -/
structure M2 where
  a : ℕ
  b : ℕ
  c : ℕ
  d : ℕ
  deriving DecidableEq, Repr

/-- The continuant matrix of `[u0, ..., uk]`: the product of the matrices
`[[ui, 1], [1, 0]]`.  Its first column `(a, c)` is the fraction `p/q` the
list denotes, its second column `(b, d)` is the previous convergent
`[u0, ..., u_{k-1}]` (so `(b, d) = (0, 1)` and `(1, 0)` stand for the
virtual ancestor `0/1` and the sentinel `1/0` respectively). -/
def cont : List ℕ → M2
  | [] => ⟨1, 0, 0, 1⟩
  | u :: L => ⟨u * (cont L).a + (cont L).c, u * (cont L).b + (cont L).d,
              (cont L).a, (cont L).b⟩

/-- Modelled from the spec (§4.2 `p()`): the numerator stored at a node. -/
def pVal (L : List ℕ) : ℕ := (cont L).a

/-- Modelled from the spec (§4.2 `q()`): the denominator stored at a node. -/
def qVal (L : List ℕ) : ℕ := (cont L).c

/-- Numerator of the previous convergent `[u0, ..., u_{k-1}]`. -/
def prevNum (L : List ℕ) : ℕ := (cont L).b

/-- Denominator of the previous convergent `[u0, ..., u_{k-1}]`. -/
def prevDen (L : List ℕ) : ℕ := (cont L).d

@[simp] theorem cont_nil : cont [] = ⟨1, 0, 0, 1⟩ := rfl

theorem cont_cons (u : ℕ) (L : List ℕ) :
    cont (u :: L) = ⟨u * (cont L).a + (cont L).c, u * (cont L).b + (cont L).d,
      (cont L).a, (cont L).b⟩ := rfl

theorem pVal_cons (u : ℕ) (L : List ℕ) :
    pVal (u :: L) = u * pVal L + qVal L := rfl

theorem qVal_cons (u : ℕ) (L : List ℕ) : qVal (u :: L) = pVal L := rfl

@[simp] theorem pVal_nil : pVal ([] : List ℕ) = 1 := rfl

@[simp] theorem qVal_nil : qVal ([] : List ℕ) = 0 := rfl

/-- Continuant matrices multiply on the right when a coefficient is appended. -/
theorem cont_snoc (ys : List ℕ) (u : ℕ) :
    cont (ys ++ [u]) = ⟨u * (cont ys).a + (cont ys).b, (cont ys).a,
      u * (cont ys).c + (cont ys).d, (cont ys).c⟩ := by
  induction ys with
  | nil => simp [cont]
  | cons y ys ih =>
      simp only [List.cons_append, cont_cons, ih]
      refine congrArg₂ (fun x y => M2.mk x y _ _) ?_ ?_ <;> ring

theorem pVal_snoc (ys : List ℕ) (u : ℕ) :
    pVal (ys ++ [u]) = u * pVal ys + prevNum ys := by
  simp [pVal, prevNum, cont_snoc]

theorem qVal_snoc (ys : List ℕ) (u : ℕ) :
    qVal (ys ++ [u]) = u * qVal ys + prevDen ys := by
  simp [qVal, prevDen, cont_snoc]

theorem prevNum_snoc (ys : List ℕ) (u : ℕ) : prevNum (ys ++ [u]) = pVal ys := by
  simp [pVal, prevNum, cont_snoc]

theorem prevDen_snoc (ys : List ℕ) (u : ℕ) : prevDen (ys ++ [u]) = qVal ys := by
  simp [qVal, prevDen, cont_snoc]

/-- The determinant of a continuant matrix is `(-1)^length`. -/
theorem cont_det (L : List ℕ) :
    ((cont L).a : ℤ) * (cont L).d - (cont L).b * (cont L).c =
      (-1 : ℤ) ^ L.length := by
  induction L with
  | nil => simp
  | cons u L ih =>
      simp only [cont_cons, List.length_cons, pow_succ]
      push_cast
      nlinarith [ih]

/-- Even-length lists have determinant `+1`, in natural-number form. -/
theorem cont_det_even (L : List ℕ) (h : Even L.length) :
    (cont L).a * (cont L).d = (cont L).b * (cont L).c + 1 := by
  have hd := cont_det L
  rw [h.neg_one_pow] at hd
  omega

/-- Odd-length lists have determinant `-1`, in natural-number form. -/
theorem cont_det_odd (L : List ℕ) (h : ¬ Even L.length) :
    (cont L).b * (cont L).c = (cont L).a * (cont L).d + 1 := by
  have hd := cont_det L
  rw [(Nat.not_even_iff_odd.mp h).neg_one_pow] at hd
  omega

/-- The fraction denoted by any coefficient list is irreducible. -/
theorem gcd_pVal_qVal (L : List ℕ) : Nat.gcd (pVal L) (qVal L) = 1 := by
  have h1 : Nat.gcd (cont L).a (cont L).c ∣ (cont L).a * (cont L).d :=
    Dvd.dvd.mul_right (Nat.gcd_dvd_left _ _) _
  have h2 : Nat.gcd (cont L).a (cont L).c ∣ (cont L).b * (cont L).c :=
    Dvd.dvd.mul_left (Nat.gcd_dvd_right _ _) _
  rcases Nat.even_or_odd L.length with he | ho
  · have hd := cont_det_even L he
    have h3 := Nat.dvd_sub' h1 h2
    rw [hd, Nat.add_sub_cancel_left] at h3
    exact Nat.dvd_one.mp h3
  · have hd := cont_det_odd L (Nat.not_even_iff_odd.mpr ho)
    have h3 := Nat.dvd_sub' h2 h1
    rw [hd, Nat.add_sub_cancel_left] at h3
    exact Nat.dvd_one.mp h3

/-- The previous convergent of any coefficient list is irreducible. -/
theorem gcd_prevNum_prevDen (L : List ℕ) :
    Nat.gcd (prevNum L) (prevDen L) = 1 := by
  have h1 : Nat.gcd (cont L).b (cont L).d ∣ (cont L).a * (cont L).d :=
    Dvd.dvd.mul_left (Nat.gcd_dvd_right _ _) _
  have h2 : Nat.gcd (cont L).b (cont L).d ∣ (cont L).b * (cont L).c :=
    Dvd.dvd.mul_right (Nat.gcd_dvd_left _ _) _
  rcases Nat.even_or_odd L.length with he | ho
  · have hd := cont_det_even L he
    have h3 := Nat.dvd_sub' h1 h2
    rw [hd, Nat.add_sub_cancel_left] at h3
    exact Nat.dvd_one.mp h3
  · have hd := cont_det_odd L (Nat.not_even_iff_odd.mpr ho)
    have h3 := Nat.dvd_sub' h2 h1
    rw [hd, Nat.add_sub_cancel_left] at h3
    exact Nat.dvd_one.mp h3

/-- Every element of the list is positive. -/
def AllPos (L : List ℕ) : Prop := ∀ x ∈ L, 1 ≤ x

/-- Every element after the head is positive. -/
def PosTail (L : List ℕ) : Prop := ∀ x ∈ L.tail, 1 ≤ x

/-- If the list has at least two coefficients, the last one is at least 2. -/
def LastBig (L : List ℕ) : Prop := 2 ≤ L.length → 2 ≤ L.getLastD 0

/-- A canonical continued-fraction coefficient list, as produced by the
Euclidean algorithm: all coefficients after `u0` are positive, and the last
coefficient is at least 2 whenever there are at least two of them. -/
def Canon (L : List ℕ) : Prop := PosTail L ∧ LastBig L

/-- The shape of the strict tails of a canonical list: all coefficients
positive and the last at least 2. -/
def Tail2 (L : List ℕ) : Prop := AllPos L ∧ 2 ≤ L.getLastD 0

instance (L : List ℕ) : Decidable (AllPos L) := List.decidableBAll _ L

instance (L : List ℕ) : Decidable (PosTail L) := List.decidableBAll _ L.tail

instance (L : List ℕ) : Decidable (LastBig L) := by
  unfold LastBig
  infer_instance

instance (L : List ℕ) : Decidable (Canon L) := by
  unfold Canon
  infer_instance

theorem tail2_canon (L : List ℕ) (h : Tail2 L) : Canon L :=
  ⟨fun x hx => h.1 x (List.mem_of_mem_tail hx), fun _ => h.2⟩

/-- Any list with a positive value: `pVal` is always at least 1 on lists
whose elements are all positive. -/
theorem pVal_pos_allPos (L : List ℕ) (h : AllPos L) : 1 ≤ pVal L := by
  induction L with
  | nil => simp
  | cons u L ih =>
      have hu : 1 ≤ u := h u (List.mem_cons_self u L)
      have hL : AllPos L := fun x hx => h x (List.mem_cons_of_mem u hx)
      have := ih hL
      rw [pVal_cons]
      nlinarith

theorem qVal_pos_allPos (L : List ℕ) (h : AllPos L) (hne : L ≠ []) :
    1 ≤ qVal L := by
  cases L with
  | nil => exact absurd rfl hne
  | cons u L =>
      rw [qVal_cons]
      exact pVal_pos_allPos L fun x hx => h x (List.mem_cons_of_mem u hx)

theorem qVal_pos_canon (L : List ℕ) (h : Canon L) (hne : L ≠ []) :
    1 ≤ qVal L := by
  cases L with
  | nil => exact absurd rfl hne
  | cons u L =>
      rw [qVal_cons]
      exact pVal_pos_allPos L h.1

/-- On strict tails the value is a fraction strictly greater than 1. -/
theorem qVal_lt_pVal_tail2 (L : List ℕ) (h : Tail2 L) (hne : L ≠ []) :
    qVal L < pVal L := by
  induction L with
  | nil => exact absurd rfl hne
  | cons u L ih =>
      rw [pVal_cons, qVal_cons]
      rcases List.eq_nil_or_concat L with hL | ⟨ys, v, hys⟩
      · subst hL
        have : 2 ≤ u := by simpa [List.getLastD] using h.2
        simp only [pVal_nil, qVal_nil]
        omega
      · have hne' : L ≠ [] := by
          subst hys
          simp
        have hu : 1 ≤ u := h.1 u (List.mem_cons_self u L)
        have hT : Tail2 L := by
          have heq : (u :: L).getLastD 0 = L.getLastD 0 := by
            cases L with
            | nil => exact absurd rfl hne'
            | cons v' L' => simp [List.getLastD]
          exact ⟨fun x hx => h.1 x (List.mem_cons_of_mem u hx), heq ▸ h.2⟩
        have h1 := ih hT hne'
        have h2 : 1 ≤ qVal L :=
          qVal_pos_allPos L (fun x hx => hT.1 x hx) hne'
        nlinarith

/-- The Euclidean expansion of a fraction strictly greater than 1 (numerator
larger than positive denominator, coprime) is a strict-tail-shaped list. -/
theorem tail2_cfE : ∀ b a : ℕ, 1 ≤ b → b < a → Nat.gcd a b = 1 →
    Tail2 (cfE a b) := by
  intro b
  induction b using Nat.strong_induction_on with
  | _ b ih =>
      intro a hb hba hg
      have hb0 : b ≠ 0 := by omega
      rw [cfE_pos a b hb0]
      have hq : 1 ≤ a / b := (Nat.one_le_div_iff (by omega)).mpr (by omega)
      rcases Nat.eq_zero_or_pos (a % b) with hr | hr
      · -- b divides a, and coprimality forces b = 1, a ≥ 2
        have hdvd : b ∣ a := Nat.dvd_of_mod_eq_zero hr
        have hb1 : b = 1 := by
          have : Nat.gcd a b = b := Nat.gcd_eq_right hdvd
          omega
        subst hb1
        rw [hr, cfE_zero]
        refine ⟨?_, ?_⟩
        · intro x hx
          simp only [List.mem_singleton] at hx
          subst hx
          omega
        · simp only [List.getLastD_cons, List.getLastD_nil]
          omega
      · have hrb : a % b < b := Nat.mod_lt _ (by omega)
        have hg' : Nat.gcd b (a % b) = 1 := by
          rw [Nat.gcd_comm b (a % b), ← Nat.gcd_rec b a, Nat.gcd_comm b a]
          exact hg
        have hT := ih (a % b) hrb b hr hrb hg'
        have hne : cfE b (a % b) ≠ [] := by
          rw [cfE_pos b (a % b) (by omega)]
          simp
        refine ⟨?_, ?_⟩
        · intro x hx
          rcases List.mem_cons.mp hx with hx | hx
          · omega
          · exact hT.1 x hx
        · have : ((a / b) :: cfE b (a % b)).getLastD 0 =
              (cfE b (a % b)).getLastD 0 := by
            cases hcf : cfE b (a % b) with
            | nil => exact absurd hcf hne
            | cons v' L' => simp [List.getLastD]
          rw [this]
          exact hT.2

/-- Correctness of the Euclidean expansion: evaluating `cfE p q` gives back
the (coprime) pair `(p, q)`. -/
theorem value_cfE : ∀ q p : ℕ, 1 ≤ q → Nat.gcd p q = 1 →
    pVal (cfE p q) = p ∧ qVal (cfE p q) = q := by
  intro q
  induction q using Nat.strong_induction_on with
  | _ q ih =>
      intro p hq hg
      rw [cfE_pos p q (by omega)]
      rcases Nat.eq_zero_or_pos (p % q) with hr | hr
      · have hdvd : q ∣ p := Nat.dvd_of_mod_eq_zero hr
        have hq1 : q = 1 := by
          have : Nat.gcd p q = q := Nat.gcd_eq_right hdvd
          omega
        subst hq1
        rw [hr, cfE_zero, pVal_cons, qVal_cons]
        simp
      · have hrq : p % q < q := Nat.mod_lt _ (by omega)
        have hg' : Nat.gcd q (p % q) = 1 := by
          rw [Nat.gcd_comm q (p % q), ← Nat.gcd_rec q p, Nat.gcd_comm q p]
          exact hg
        obtain ⟨h1, h2⟩ := ih (p % q) hrq q hr hg'
        rw [pVal_cons, qVal_cons, h1, h2]
        exact ⟨by rw [Nat.mul_comm]; exact Nat.div_add_mod p q, rfl⟩

/-- The Euclidean expansion of a coprime pair is canonical. -/
theorem canon_cfE (p q : ℕ) (hq : 1 ≤ q) (hg : Nat.gcd p q = 1) :
    Canon (cfE p q) := by
  rw [cfE_pos p q (by omega)]
  rcases Nat.eq_zero_or_pos (p % q) with hr | hr
  · have hdvd : q ∣ p := Nat.dvd_of_mod_eq_zero hr
    have hq1 : q = 1 := by
      have : Nat.gcd p q = q := Nat.gcd_eq_right hdvd
      omega
    subst hq1
    rw [hr, cfE_zero]
    exact ⟨fun x hx => by simp at hx, fun hlen => by simp at hlen⟩
  · have hrq : p % q < q := Nat.mod_lt _ (by omega)
    have hg' : Nat.gcd q (p % q) = 1 := by
      rw [Nat.gcd_comm q (p % q), ← Nat.gcd_rec q p, Nat.gcd_comm q p]
      exact hg
    have hT := tail2_cfE (p % q) q hr hrq hg'
    have hne : cfE q (p % q) ≠ [] := by
      rw [cfE_pos q (p % q) (by omega)]
      simp
    constructor
    · intro x hx
      exact hT.1 x (by simpa using hx)
    · intro _
      have : ((p / q) :: cfE q (p % q)).getLastD 0 =
          (cfE q (p % q)).getLastD 0 := by
        cases hcf : cfE q (p % q) with
        | nil => exact absurd hcf hne
        | cons v' L' => simp [List.getLastD_cons]
      rw [this]
      exact hT.2

/-- Nonempty lists have a nonzero denominator only when canonical-tailed;
conversely `qVal L = 0` characterises the empty list among canonical ones. -/
theorem qVal_eq_zero_iff (L : List ℕ) (h : Canon L) : qVal L = 0 ↔ L = [] := by
  constructor
  · intro h0
    by_contra hne
    have := qVal_pos_canon L h hne
    omega
  · intro h0
    subst h0
    rfl

/-- Round trip: re-expanding the value of a nonempty canonical list gives
back the same list. -/
theorem cfE_value : ∀ L : List ℕ, Canon L → L ≠ [] →
    cfE (pVal L) (qVal L) = L := by
  intro L
  induction L with
  | nil => intro _ h; exact absurd rfl h
  | cons u L ih =>
      intro hc _
      rcases List.eq_nil_or_concat L with hL | ⟨ys, v, hys⟩
      · subst hL
        rw [pVal_cons, qVal_cons]
        simp only [pVal_nil, qVal_nil, Nat.mul_one, Nat.add_zero]
        rw [cfE_pos u 1 one_ne_zero, Nat.div_one, Nat.mod_one, cfE_zero]
      · have hne' : L ≠ [] := by
          subst hys
          simp
        have hT : Tail2 L := by
          have heq : (u :: L).getLastD 0 = L.getLastD 0 := by
            cases L with
            | nil => exact absurd rfl hne'
            | cons v' L' => simp [List.getLastD_cons]
          refine ⟨fun x hx => hc.1 x hx, ?_⟩
          have hlen : 2 ≤ (u :: L).length := by
            cases L with
            | nil => exact absurd rfl hne'
            | cons v' L' =>
                simp only [List.length_cons]
                omega
          exact heq ▸ hc.2 hlen
        have hCL : Canon L := tail2_canon L hT
        have hqp : qVal L < pVal L := qVal_lt_pVal_tail2 L hT hne'
        have hq1 : 1 ≤ qVal L := qVal_pos_allPos L hT.1 hne'
        rw [pVal_cons, qVal_cons]
        have hp1 : 1 ≤ pVal L := by omega
        rw [cfE_pos (u * pVal L + qVal L) (pVal L) (by omega)]
        have hdiv : (u * pVal L + qVal L) / pVal L = u := by
          rw [Nat.add_comm, Nat.add_mul_div_right _ _ (by omega : 0 < pVal L),
            Nat.div_eq_of_lt hqp]
          omega
        have hmod : (u * pVal L + qVal L) % pVal L = qVal L := by
          rw [Nat.add_comm, Nat.add_mul_mod_self_right,
            Nat.mod_eq_of_lt hqp]
        rw [hdiv, hmod, ih hCL hne']

/-- Canonical lists are determined by their value. -/
theorem canon_inj (L₁ L₂ : List ℕ) (h₁ : Canon L₁) (h₂ : Canon L₂)
    (hp : pVal L₁ = pVal L₂) (hq : qVal L₁ = qVal L₂) : L₁ = L₂ := by
  rcases eq_or_ne L₁ [] with hL1 | hL1
  · subst hL1
    have : qVal L₂ = 0 := by rw [← hq]; rfl
    exact ((qVal_eq_zero_iff L₂ h₂).mp this).symm
  · have hne2 : L₂ ≠ [] := by
      intro hL2
      subst hL2
      have : qVal L₁ = 0 := by rw [hq]; rfl
      exact hL1 ((qVal_eq_zero_iff L₁ h₁).mp this)
    rw [← cfE_value L₁ h₁ hL1, ← cfE_value L₂ h₂ hne2, hp, hq]

/-- Modelled from the spec (§3, §4.2 `k()`): the depth of a node.  For a
regular node `[u0, ..., uk]` the depth is `k`; the spec fixes the two
sentinels `0/1` and `1/0` at depth 0 ("the two depth-0 sentinel
fractions"), which for the empty list (the `1/0` node) is stated
explicitly. -/
def kOfL (L : List ℕ) : ℤ := if L = [] then 0 else (L.length : ℤ) - 1

/-- Modelled from the spec (§4.2 `u()`): the quotient stored at a node, the
last coefficient of its continued fraction (0 for the sentinel roots). -/
def uOf (L : List ℕ) : ℕ := L.getLastD 0

/-- The canonical node of the Stern-Brocot tree holding the fraction
`x.1 / x.2`: its Euclidean coefficient list (`[]` for the sentinel `1/0`). -/
def toNode (x : ℕ × ℕ) : List ℕ := if x.2 = 0 then [] else cfE x.1 x.2

/-- Modelled from the spec (§4.2 `previousPartial()`): the value
`[u0, ..., u_{k-1}]` of the ascendant of strictly smaller depth. -/
def prevPair (L : List ℕ) : ℕ × ℕ := (prevNum L, prevDen L)

/-- Modelled from the spec (§4.2 `father()`): the value `[u0, ..., uk - 1]`
obtained by decrementing the last coefficient, i.e. the component-wise
difference between the node and its previous partial. -/
def fatherPair (L : List ℕ) : ℕ × ℕ :=
  (pVal L - prevNum L, qVal L - prevDen L)

/-- Modelled from the spec (§3 `ascendantLeft`): the value of the smaller
of the two fractions whose mediant is this node.  The previous partial
`[u0, ..., u_{k-1}]` lies left of the node exactly when its index `k - 1`
is odd, i.e. when the list length is even. -/
def ascLeft (L : List ℕ) : ℕ × ℕ :=
  if Even L.length then prevPair L else fatherPair L

/-- Modelled from the spec (§3 `ascendantRight`): the value of the larger
of the two fractions whose mediant is this node. -/
def ascRight (L : List ℕ) : ℕ × ℕ :=
  if Even L.length then fatherPair L else prevPair L

/-- Modelled from the spec (glossary): the mediant of two fractions is the
component-wise sum. -/
def mediantP (x y : ℕ × ℕ) : ℕ × ℕ := (x.1 + y.1, x.2 + y.2)

/-- Modelled from the spec (§4.2 `left()`): the left descendant, the mediant
of the node with its left ascendant.  On coefficient lists: increment the
last coefficient when `k` is odd (even length), otherwise decrement it and
append a new coefficient 2. -/
def leftD (L : List ℕ) : List ℕ :=
  if Even L.length then L.dropLast ++ [L.getLastD 0 + 1]
  else L.dropLast ++ [L.getLastD 0 - 1, 2]

/-- Modelled from the spec (§4.2 `right()`): the right descendant, the
mediant of the node with its right ascendant. -/
def rightD (L : List ℕ) : List ℕ :=
  if Even L.length then L.dropLast ++ [L.getLastD 0 - 1, 2]
  else L.dropLast ++ [L.getLastD 0 + 1]

/-- Modelled from the spec (§4.2 `father()`, header doc
`[u0,...,uk] => [u0,...,uk - 1]`): decrement the last coefficient and
return the canonical node of the result (a trailing 1 is folded into the
previous coefficient, since `[..., v, 1]` and `[..., v + 1]` denote the
same fraction). -/
def father (L : List ℕ) : List ℕ :=
  match L.reverse with
  | [] => []
  | u :: ys =>
    if 3 ≤ u ∨ ys = [] then ((u - 1) :: ys).reverse
    else
      match ys with
      | [] => [u - 1]
      | v :: zs => ((v + 1) :: zs).reverse

/-- Modelled from the spec (§3 `inverse`, §4.2 `inverse()`): the node for
`q/p`, numerator and denominator swapped. -/
def inverseN (L : List ℕ) : List ℕ := toNode (qVal L, pVal L)

/-- Modelled from the spec (§4.2 `partial(kp)`, header doc
`[u0,...,uk] => [u0,...,ukp]`): the depth-`kp` prefix fraction.  The depth
argument is a signed `Size`; negative depths fall back to the sentinel
prefixes. -/
def partialN (L : List ℕ) (kp : ℤ) : List ℕ :=
  toNode (pVal (L.take (kp + 1).toNat), qVal (L.take (kp + 1).toNat))

/-- Modelled from the spec (§4.2 `reduced(i)`, header doc
`[u0,...,uk] => [u0,...,u_{k-i}]`): drop the last `i` coefficients. -/
def reducedN (L : List ℕ) (i : ℤ) : List ℕ :=
  toNode (pVal (L.take (L.length - i.toNat)),
          qVal (L.take (L.length - i.toNat)))

/-- Modelled from the spec (§4.2 `getSplit`): the ordered pair of ascendant
fractions whose mediant is this node, read from the ascendant links. -/
def getSplitN (L : List ℕ) : List ℕ × List ℕ :=
  (toNode (ascLeft L), toNode (ascRight L))

/-- Modelled from the spec (§4.2 `getSplitBerstel`): the Berstel
decomposition `this = nb1 * [f1] ⊕ nb2 * [f2]`, derived from the stored
quotient `u()` and the ascendant links: the previous partial is repeated
`u()` times and combined once with the previous previous partial; the sides
are determined by the parity of `k()`.  Returns `(f1, nb1, f2, nb2)`. -/
def getSplitBerstelN (L : List ℕ) : List ℕ × ℕ × List ℕ × ℕ :=
  if Even (kOfL L) then
    (toNode (prevPair L.dropLast), 1, toNode (prevPair L), uOf L)
  else
    (toNode (prevPair L), uOf L, toNode (prevPair L.dropLast), 1)

/-- Modelled from the spec (§4.2 `cfrac`): the ordered coefficient sequence
`[u0, ..., uk]`, collected by walking the ascendant prefixes
`[u0, ..., u_{k-1}]` up to the root and recording each quotient. -/
def cfracM (L : List ℕ) : List ℕ :=
  match L with
  | [] => []
  | u :: L' => cfracM ((u :: L').dropLast) ++ [(u :: L').getLastD 0]
termination_by L.length
decreasing_by simp [List.length_dropLast]

/-- Modelled from the spec (§4.1 `fraction`): one descent step loop.  At
the current node, compare the target `p/q` with the stored fraction
(cross-multiplied) and descend into the left or right child until the node
holding exactly `p/q` is reached.  `fuel` bounds the number of steps. -/
def descendN (p q : ℕ) : ℕ → List ℕ → List ℕ
  | 0, cur => cur
  | fuel + 1, cur =>
    if p * qVal cur = q * pVal cur then cur
    else if p * qVal cur < q * pVal cur then descendN p q fuel (leftD cur)
    else descendN p q fuel (rightD cur)

/-- Modelled from the spec (§4.1 `fraction(p, q, ancestor)`): the Euclidean
descent from the given ancestor to the node for `p/q`, materialising
missing nodes on the way.  The fraction `1/0` is the fixed sentinel and is
returned directly.  `p + q` descent steps always suffice (the spec bounds
the construction by twice the sum of the partial quotients). -/
def fractionM (p q : ℕ) (anc : List ℕ) : List ℕ :=
  if p = 1 ∧ q = 0 then [] else descendN p q (p + q) anc

/-- Modelled from the spec (§4.1): a valid ancestor argument for
`fraction(p, q, ancestor)`: an already-constructed node that either is the
target itself or has the target strictly inside the open interval spanned
by its two ascendants (its subtree).  For the sentinel target `1/0` the
ancestor is ignored by the construction. -/
def IsValidAnc (p q : ℕ) (anc : List ℕ) : Prop :=
  Canon anc ∧ ((p, q) = (1, 0) ∨ (pVal anc = p ∧ qVal anc = q) ∨
    ((ascLeft anc).1 * q < p * (ascLeft anc).2 ∧
     p * (ascRight anc).2 < (ascRight anc).1 * q))

theorem prevPair_snoc (ys : List ℕ) (u : ℕ) :
    prevPair (ys ++ [u]) = (pVal ys, qVal ys) := by
  unfold prevPair
  rw [prevNum_snoc, prevDen_snoc]

theorem fatherPair_snoc (ys : List ℕ) (u' : ℕ) :
    fatherPair (ys ++ [u' + 1]) =
      (u' * pVal ys + prevNum ys, u' * qVal ys + prevDen ys) := by
  unfold fatherPair
  rw [pVal_snoc, qVal_snoc, prevNum_snoc, prevDen_snoc]
  have h1 : (u' + 1) * pVal ys + prevNum ys =
      pVal ys + (u' * pVal ys + prevNum ys) := by ring
  have h2 : (u' + 1) * qVal ys + prevDen ys =
      qVal ys + (u' * qVal ys + prevDen ys) := by ring
  rw [h1, h2, Nat.add_sub_cancel_left, Nat.add_sub_cancel_left]

theorem even_length_snoc (ys : List ℕ) (u : ℕ) :
    Even (ys ++ [u]).length ↔ ¬ Even ys.length := by
  simp [List.length_append, Nat.even_add_one]

theorem leftD_snoc (ys : List ℕ) (u : ℕ) :
    leftD (ys ++ [u]) = if Even (ys ++ [u]).length then ys ++ [u + 1]
      else ys ++ [u - 1, 2] := by
  unfold leftD
  rw [List.dropLast_concat, List.getLastD_concat]

theorem rightD_snoc (ys : List ℕ) (u : ℕ) :
    rightD (ys ++ [u]) = if Even (ys ++ [u]).length then ys ++ [u - 1, 2]
      else ys ++ [u + 1] := by
  unfold rightD
  rw [List.dropLast_concat, List.getLastD_concat]

theorem pair_snoc_snoc (ys : List ℕ) (a b : ℕ) :
    ys ++ [a, b] = (ys ++ [a]) ++ [b] := by
  rw [List.append_assoc]
  rfl

theorem tail_append_left (ys zs : List ℕ) (h : ys ≠ []) :
    (ys ++ zs).tail = ys.tail ++ zs := by
  cases ys with
  | nil => exact absurd rfl h
  | cons a l => rfl

/-- The last coefficient of a canonical interior node is positive. -/
theorem last_pos_interior (L : List ℕ) (hc : Canon L) (hne : L ≠ [])
    (h0 : L ≠ [0]) : 1 ≤ L.getLastD 0 := by
  cases L with
  | nil => exact absurd rfl hne
  | cons u L' =>
      cases L' with
      | nil =>
          have : u ≠ 0 := fun h => h0 (by rw [h])
          simpa [List.getLastD_cons, List.getLastD_nil] using
            Nat.one_le_iff_ne_zero.mpr this
      | cons v L'' =>
          have := hc.2 (by simp [List.length_cons])
          omega

/-- A canonical list of length at least 2 ends with a coefficient
at least 2. -/
theorem last_big_of_ne_nil (ys : List ℕ) (u : ℕ)
    (hc : Canon (ys ++ [u])) (hys : ys ≠ []) : 2 ≤ u := by
  have hlen : 2 ≤ (ys ++ [u]).length := by
    cases ys with
    | nil => exact absurd rfl hys
    | cons a l => simp [List.length_append, List.length_cons]
  have := hc.2 hlen
  rwa [List.getLastD_concat] at this

theorem det_even' (ys : List ℕ) (h : Even ys.length) :
    pVal ys * prevDen ys = prevNum ys * qVal ys + 1 := cont_det_even ys h

theorem det_odd' (ys : List ℕ) (h : ¬ Even ys.length) :
    prevNum ys * qVal ys = pVal ys * prevDen ys + 1 := cont_det_odd ys h

theorem concat_ne_zerolist (ys : List ℕ) (v : ℕ) (hv : 1 ≤ v) :
    ys ++ [v] ≠ [0] := by
  intro h
  have h2 := List.getLastD_concat 0 v ys
  rw [h] at h2
  simp [List.getLastD_cons, List.getLastD_nil] at h2
  omega

/-- Interior decomposition: a canonical node other than the two sentinels is
a snoc with positive last coefficient. -/
theorem interior_decomp (L : List ℕ) (hc : Canon L) (hne : L ≠ [])
    (h0 : L ≠ [0]) : ∃ ys u', L = ys ++ [u' + 1] := by
  rcases List.eq_nil_or_concat L with hnil | ⟨ys, u, hL⟩
  · exact absurd hnil hne
  · rw [List.concat_eq_append] at hL
    subst hL
    have hu := last_pos_interior _ hc hne h0
    rw [List.getLastD_concat] at hu
    exact ⟨ys, u - 1, by rw [Nat.sub_add_cancel hu]⟩

/-- A node is the mediant of its two ascendants. -/
theorem mediant_split (L : List ℕ) (hc : Canon L) (hne : L ≠ [])
    (h0 : L ≠ [0]) :
    pVal L = (ascLeft L).1 + (ascRight L).1 ∧
    qVal L = (ascLeft L).2 + (ascRight L).2 := by
  obtain ⟨ys, u', rfl⟩ := interior_decomp L hc hne h0
  unfold ascLeft ascRight
  by_cases hpar : Even (ys ++ [u' + 1]).length
  · rw [if_pos hpar, if_pos hpar, prevPair_snoc, fatherPair_snoc,
      pVal_snoc, qVal_snoc]
    constructor <;> (simp only; ring)
  · rw [if_neg hpar, if_neg hpar, prevPair_snoc, fatherPair_snoc,
      pVal_snoc, qVal_snoc]
    constructor <;> (simp only; ring)

/-- The two ascendants of an interior node span a unimodular interval. -/
theorem ctx_det (L : List ℕ) (hc : Canon L) (hne : L ≠ []) (h0 : L ≠ [0]) :
    (ascRight L).1 * (ascLeft L).2 = (ascRight L).2 * (ascLeft L).1 + 1 := by
  obtain ⟨ys, u', rfl⟩ := interior_decomp L hc hne h0
  unfold ascLeft ascRight
  by_cases hpar : Even (ys ++ [u' + 1]).length
  · simp only [if_pos hpar]
    rw [prevPair_snoc, fatherPair_snoc]
    have hodd : ¬ Even ys.length := (even_length_snoc ys (u' + 1)).mp hpar
    have hd := det_odd' ys hodd
    simp only
    zify at hd ⊢
    linear_combination hd
  · simp only [if_neg hpar]
    rw [prevPair_snoc, fatherPair_snoc]
    have heven : Even ys.length := by
      by_contra hno
      exact hpar ((even_length_snoc ys (u' + 1)).mpr hno)
    have hd := det_even' ys heven
    simp only
    zify at hd ⊢
    linear_combination hd

/-- Value of the left child: the mediant with the left ascendant. -/
theorem leftD_val (L : List ℕ) (hc : Canon L) (hne : L ≠ []) (h0 : L ≠ [0]) :
    pVal (leftD L) = pVal L + (ascLeft L).1 ∧
    qVal (leftD L) = qVal L + (ascLeft L).2 := by
  obtain ⟨ys, u', rfl⟩ := interior_decomp L hc hne h0
  rw [leftD_snoc]
  unfold ascLeft
  by_cases hpar : Even (ys ++ [u' + 1]).length
  · rw [if_pos hpar, if_pos hpar, prevPair_snoc, pVal_snoc, pVal_snoc,
      qVal_snoc, qVal_snoc]
    constructor <;> (simp only; ring)
  · rw [if_neg hpar, if_neg hpar, fatherPair_snoc]
    have h1 : u' + 1 - 1 = u' := by omega
    rw [h1, pair_snoc_snoc, pVal_snoc, qVal_snoc, pVal_snoc, qVal_snoc,
      pVal_snoc, qVal_snoc, prevNum_snoc, prevDen_snoc]
    constructor <;> (simp only; ring)

/-- Value of the right child: the mediant with the right ascendant. -/
theorem rightD_val (L : List ℕ) (hc : Canon L) (hne : L ≠ []) (h0 : L ≠ [0]) :
    pVal (rightD L) = pVal L + (ascRight L).1 ∧
    qVal (rightD L) = qVal L + (ascRight L).2 := by
  obtain ⟨ys, u', rfl⟩ := interior_decomp L hc hne h0
  rw [rightD_snoc]
  unfold ascRight
  by_cases hpar : Even (ys ++ [u' + 1]).length
  · rw [if_pos hpar, if_pos hpar, fatherPair_snoc]
    have h1 : u' + 1 - 1 = u' := by omega
    rw [h1, pair_snoc_snoc, pVal_snoc, qVal_snoc, pVal_snoc, qVal_snoc,
      pVal_snoc, qVal_snoc, prevNum_snoc, prevDen_snoc]
    constructor <;> (simp only; ring)
  · rw [if_neg hpar, if_neg hpar, prevPair_snoc, pVal_snoc, pVal_snoc,
      qVal_snoc, qVal_snoc]
    constructor <;> (simp only; ring)

/-- Ascendants of the left child: its interval is `(l, this)`. -/
theorem leftD_ctx (L : List ℕ) (hc : Canon L) (hne : L ≠ []) (h0 : L ≠ [0]) :
    ascLeft (leftD L) = ascLeft L ∧
    ascRight (leftD L) = (pVal L, qVal L) := by
  obtain ⟨ys, u', rfl⟩ := interior_decomp L hc hne h0
  rw [leftD_snoc]
  by_cases hpar : Even (ys ++ [u' + 1]).length
  · rw [if_pos hpar]
    have hpar2 : Even (ys ++ [u' + 1 + 1]).length := by
      rw [even_length_snoc] at hpar ⊢
      exact hpar
    unfold ascLeft ascRight
    simp only [if_pos hpar, if_pos hpar2]
    rw [prevPair_snoc, prevPair_snoc]
    refine ⟨rfl, ?_⟩
    rw [show u' + 1 + 1 = (u' + 1) + 1 from rfl, fatherPair_snoc,
      pVal_snoc, qVal_snoc]
  · rw [if_neg hpar]
    have h1 : u' + 1 - 1 = u' := by omega
    rw [h1, pair_snoc_snoc]
    have hys : Even ys.length := by
      by_contra hno
      exact hpar ((even_length_snoc ys (u' + 1)).mpr hno)
    have hpar2 : Even ((ys ++ [u']) ++ [2]).length := by
      rw [even_length_snoc, even_length_snoc]
      simpa using hys
    unfold ascLeft ascRight
    simp only [if_neg hpar, if_pos hpar2]
    rw [prevPair_snoc]
    constructor
    · rw [fatherPair_snoc, pVal_snoc, qVal_snoc]
    · rw [show (2 : ℕ) = 1 + 1 from rfl, fatherPair_snoc, pVal_snoc,
        qVal_snoc, prevNum_snoc, prevDen_snoc, pVal_snoc, qVal_snoc]
      refine congrArg₂ Prod.mk ?_ ?_ <;> ring

/-- Ascendants of the right child: its interval is `(this, r)`. -/
theorem rightD_ctx (L : List ℕ) (hc : Canon L) (hne : L ≠ []) (h0 : L ≠ [0]) :
    ascLeft (rightD L) = (pVal L, qVal L) ∧
    ascRight (rightD L) = ascRight L := by
  obtain ⟨ys, u', rfl⟩ := interior_decomp L hc hne h0
  rw [rightD_snoc]
  by_cases hpar : Even (ys ++ [u' + 1]).length
  · rw [if_pos hpar]
    have h1 : u' + 1 - 1 = u' := by omega
    rw [h1, pair_snoc_snoc]
    have hys : ¬ Even ys.length := (even_length_snoc ys (u' + 1)).mp hpar
    have hpar2 : ¬ Even ((ys ++ [u']) ++ [2]).length := by
      rw [even_length_snoc, even_length_snoc]
      simpa using hys
    unfold ascLeft ascRight
    simp only [if_pos hpar, if_neg hpar2]
    rw [prevPair_snoc]
    constructor
    · rw [show (2 : ℕ) = 1 + 1 from rfl, fatherPair_snoc, pVal_snoc,
        qVal_snoc, prevNum_snoc, prevDen_snoc, pVal_snoc, qVal_snoc]
      refine congrArg₂ Prod.mk ?_ ?_ <;> ring
    · rw [fatherPair_snoc, pVal_snoc, qVal_snoc]
  · rw [if_neg hpar]
    have hpar2 : ¬ Even (ys ++ [u' + 1 + 1]).length := by
      rw [even_length_snoc] at hpar ⊢
      exact hpar
    unfold ascLeft ascRight
    simp only [if_neg hpar, if_neg hpar2]
    rw [prevPair_snoc, prevPair_snoc]
    refine ⟨?_, rfl⟩
    rw [show u' + 1 + 1 = (u' + 1) + 1 from rfl, fatherPair_snoc,
      pVal_snoc, qVal_snoc]

/-- The left child of a canonical interior node is again canonical
interior. -/
theorem leftD_good (L : List ℕ) (hc : Canon L) (hne : L ≠ []) (h0 : L ≠ [0]) :
    Canon (leftD L) ∧ leftD L ≠ [] ∧ leftD L ≠ [0] := by
  obtain ⟨ys, u', rfl⟩ := interior_decomp L hc hne h0
  rw [leftD_snoc]
  by_cases hpar : Even (ys ++ [u' + 1]).length
  · rw [if_pos hpar]
    have hysne : ys ≠ [] := by
      intro h
      rw [h] at hpar
      simp at hpar
    refine ⟨⟨?_, ?_⟩, by simp, concat_ne_zerolist _ _ (by omega)⟩
    · intro x hx
      rw [tail_append_left ys _ hysne] at hx
      rcases List.mem_append.mp hx with hx | hx
      · exact hc.1 x (by
          rw [tail_append_left ys _ hysne]
          exact List.mem_append_left _ hx)
      · simp only [List.mem_singleton] at hx
        omega
    · intro _
      rw [List.getLastD_concat]
      omega
  · rw [if_neg hpar, show u' + 1 - 1 = u' from by omega]
    cases hys : ys with
    | nil =>
        refine ⟨⟨?_, ?_⟩, by simp, ?_⟩
        · intro x hx
          simp only [List.nil_append, List.tail_cons, List.mem_singleton]
            at hx
          omega
        · intro _
          simp [List.getLastD_cons, List.getLastD_nil]
        · rw [List.nil_append, show [u', 2] = [u'] ++ [2] from rfl]
          exact concat_ne_zerolist _ _ (by omega)
    | cons y ys' =>
        rw [← hys]
        have hysne : ys ≠ [] := by rw [hys]; simp
        have hbig := last_big_of_ne_nil ys (u' + 1) hc hysne
        refine ⟨⟨?_, ?_⟩, by simp, ?_⟩
        · intro x hx
          rw [tail_append_left ys _ hysne] at hx
          rcases List.mem_append.mp hx with hx | hx
          · exact hc.1 x (by
              rw [tail_append_left ys _ hysne]
              exact List.mem_append_left _ hx)
          · simp only [List.mem_cons, List.mem_singleton,
              List.not_mem_nil, or_false] at hx
            rcases hx with hx | hx <;> omega
        · intro _
          rw [pair_snoc_snoc, List.getLastD_concat]
        · rw [pair_snoc_snoc]
          exact concat_ne_zerolist _ _ (by omega)

/-- The right child of a canonical interior node is again canonical
interior. -/
theorem rightD_good (L : List ℕ) (hc : Canon L) (hne : L ≠ [])
    (h0 : L ≠ [0]) :
    Canon (rightD L) ∧ rightD L ≠ [] ∧ rightD L ≠ [0] := by
  obtain ⟨ys, u', rfl⟩ := interior_decomp L hc hne h0
  rw [rightD_snoc]
  by_cases hpar : Even (ys ++ [u' + 1]).length
  · rw [if_pos hpar, show u' + 1 - 1 = u' from by omega]
    have hysne : ys ≠ [] := by
      intro h
      rw [h] at hpar
      simp at hpar
    have hbig := last_big_of_ne_nil ys (u' + 1) hc hysne
    refine ⟨⟨?_, ?_⟩, by simp, ?_⟩
    · intro x hx
      rw [tail_append_left ys _ hysne] at hx
      rcases List.mem_append.mp hx with hx | hx
      · exact hc.1 x (by
          rw [tail_append_left ys _ hysne]
          exact List.mem_append_left _ hx)
      · simp only [List.mem_cons, List.mem_singleton,
          List.not_mem_nil, or_false] at hx
        rcases hx with hx | hx <;> omega
    · intro _
      rw [pair_snoc_snoc, List.getLastD_concat]
    · rw [pair_snoc_snoc]
      exact concat_ne_zerolist _ _ (by omega)
  · rw [if_neg hpar]
    cases hys : ys with
    | nil =>
        refine ⟨⟨?_, ?_⟩, by simp, concat_ne_zerolist _ _ (by omega)⟩
        · intro x hx
          simp at hx
        · intro h
          simp at h
    | cons y ys' =>
        rw [← hys]
        have hysne : ys ≠ [] := by rw [hys]; simp
        refine ⟨⟨?_, ?_⟩, by simp, concat_ne_zerolist _ _ (by omega)⟩
        · intro x hx
          rw [tail_append_left ys _ hysne] at hx
          rcases List.mem_append.mp hx with hx | hx
          · exact hc.1 x (by
              rw [tail_append_left ys _ hysne]
              exact List.mem_append_left _ hx)
          · simp only [List.mem_singleton] at hx
            omega
        · intro _
          rw [List.getLastD_concat]
          omega

theorem descendN_succ (p q fuel : ℕ) (cur : List ℕ) :
    descendN p q (fuel + 1) cur =
      if p * qVal cur = q * pVal cur then cur
      else if p * qVal cur < q * pVal cur then descendN p q fuel (leftD cur)
      else descendN p q fuel (rightD cur) := rfl

/-- Unimodular coordinates: a point strictly inside the interval of a
unimodular pair is recovered from its two offsets. -/
theorem ab_ident (p q a b l1 l2 r1 r2 : ℕ)
    (hdet : r1 * l2 = r2 * l1 + 1)
    (ha : p * l2 = q * l1 + a)
    (hb : q * r1 = p * r2 + b) :
    a * r1 + b * l1 = p ∧ a * r2 + b * l2 = q := by
  constructor
  · zify at hdet ha hb ⊢
    linear_combination (-(r1 : ℤ)) * ha + (-(l1 : ℤ)) * hb + (p : ℤ) * hdet
  · zify at hdet ha hb ⊢
    linear_combination (-(r2 : ℤ)) * ha + (-(l2 : ℤ)) * hb + (q : ℤ) * hdet

/-- The two offsets are bounded by `p + q`. -/
theorem ab_le (p q a b l1 l2 r1 r2 : ℕ)
    (hdet : r1 * l2 = r2 * l1 + 1)
    (ha : p * l2 = q * l1 + a)
    (hb : q * r1 = p * r2 + b) : a + b ≤ p + q := by
  obtain ⟨h1, h2⟩ := ab_ident p q a b l1 l2 r1 r2 hdet ha hb
  have hr1 : 1 ≤ r1 := by
    rcases Nat.eq_zero_or_pos r1 with h | h
    · rw [h] at hdet
      omega
    · exact h
  have hl2 : 1 ≤ l2 := by
    rcases Nat.eq_zero_or_pos l2 with h | h
    · rw [h] at hdet
      simp at hdet
    · exact h
  have h3 : a ≤ a * r1 := Nat.le_mul_of_pos_right a hr1
  have h4 : b ≤ b * l2 := Nat.le_mul_of_pos_right b hl2
  omega

/-- Correctness of the Euclidean descent: starting from any canonical
interior node whose ascendant interval strictly contains the coprime
target `p/q`, the descent reaches the canonical node of `p/q`, provided
the fuel covers the offsets. -/
theorem descend_main : ∀ fuel p q cur a b, Canon cur → cur ≠ [] →
    cur ≠ [0] → Nat.gcd p q = 1 →
    p * (ascLeft cur).2 = q * (ascLeft cur).1 + a → 1 ≤ a →
    q * (ascRight cur).1 = p * (ascRight cur).2 + b → 1 ≤ b →
    a + b ≤ fuel + 1 →
    descendN p q fuel cur = cfE p q := by
  intro fuel
  induction fuel with
  | zero =>
      intro p q cur a b _ _ _ _ _ ha1 _ hb1 hfuel
      omega
  | succ fuel ih =>
      intro p q cur a b hc hne h0 hg ha ha1 hb hb1 hfuel
      obtain ⟨hmp, hmq⟩ := mediant_split cur hc hne h0
      have hdet := ctx_det cur hc hne h0
      have e1 : p * qVal cur =
          q * (ascLeft cur).1 + a + p * (ascRight cur).2 := by
        rw [hmq, Nat.mul_add, ha]
      have e2 : q * pVal cur =
          q * (ascLeft cur).1 + (p * (ascRight cur).2 + b) := by
        rw [hmp, Nat.mul_add, hb]
      rw [descendN_succ]
      by_cases heq : a = b
      · rw [if_pos (by omega)]
        obtain ⟨h1, h2⟩ := ab_ident p q a b (ascLeft cur).1 (ascLeft cur).2
          (ascRight cur).1 (ascRight cur).2 hdet ha hb
        have hp : a * pVal cur = p := by
          rw [hmp, Nat.mul_add]
          subst heq
          omega
        have hq : a * qVal cur = q := by
          rw [hmq, Nat.mul_add]
          subst heq
          omega
        have hda : a ∣ Nat.gcd p q :=
          Nat.dvd_gcd (Dvd.intro _ hp) (Dvd.intro _ hq)
        rw [hg] at hda
        have ha1' : a = 1 := Nat.dvd_one.mp hda
        rw [ha1', one_mul] at hp hq
        rw [← hp, ← hq, cfE_value cur hc hne]
      · by_cases hlt : a < b
        · rw [if_neg (by omega), if_pos (by omega)]
          obtain ⟨hc', hne', h0'⟩ := leftD_good cur hc hne h0
          obtain ⟨hctxl, hctxr⟩ := leftD_ctx cur hc hne h0
          refine ih p q (leftD cur) a (b - a) hc' hne' h0' hg ?_ ha1 ?_
            (by omega) (by omega)
          · rw [hctxl]
            exact ha
          · rw [hctxr]
            simp only
            omega
        · rw [if_neg (by omega), if_neg (by omega)]
          obtain ⟨hc', hne', h0'⟩ := rightD_good cur hc hne h0
          obtain ⟨hctxl, hctxr⟩ := rightD_ctx cur hc hne h0
          refine ih p q (rightD cur) (a - b) b hc' hne' h0' hg ?_
            (by omega) ?_ hb1 (by omega)
          · rw [hctxl]
            simp only
            omega
          · rw [hctxr]
            exact hb

/-- `fraction(p, q, ancestor)` returns the canonical node of `p/q`, for any
coprime target and any valid ancestor. -/
theorem fraction_eq (p q : ℕ) (anc : List ℕ) (hg : Nat.gcd p q = 1)
    (hv : IsValidAnc p q anc) : fractionM p q anc = toNode (p, q) := by
  obtain ⟨hca, hv⟩ := hv
  unfold fractionM
  by_cases h10 : p = 1 ∧ q = 0
  · rw [if_pos h10]
    obtain ⟨hp1, hq0⟩ := h10
    subst hp1
    subst hq0
    rfl
  · rw [if_neg h10]
    have hq1 : 1 ≤ q := by
      rcases Nat.eq_zero_or_pos q with h | h
      · subst h
        rw [Nat.gcd_zero_right] at hg
        exact absurd ⟨hg, rfl⟩ h10
      · exact h
    have htoN : toNode (p, q) = cfE p q := by
      unfold toNode
      rw [if_neg (by omega : ¬ ((p, q) : ℕ × ℕ).2 = 0)]
    rcases hv with h10' | hval | hI
    · have hp' : p = 1 := congrArg Prod.fst h10'
      have hq' : q = 0 := congrArg Prod.snd h10'
      exact absurd ⟨hp', hq'⟩ h10
    · obtain ⟨hvp, hvq⟩ := hval
      have hanne : anc ≠ [] := by
        intro h
        subst h
        rw [qVal_nil] at hvq
        omega
      obtain ⟨f, hf⟩ : ∃ f, p + q = f + 1 := ⟨p + q - 1, by omega⟩
      rw [hf, descendN_succ, if_pos (by rw [hvp, hvq, Nat.mul_comm])]
      rw [htoN, ← cfE_value anc hca hanne, hvp, hvq]
    · by_cases hanil : anc = []
      · subst hanil
        have hal : ascLeft ([] : List ℕ) = (0, 1) := by decide
        have har : ascRight ([] : List ℕ) = (1, 0) := by decide
        rw [hal, har] at hI
        simp only at hI
        have hp1 : 1 ≤ p := by omega
        obtain ⟨f, hf⟩ : ∃ f, p + q = f + 1 := ⟨p + q - 1, by omega⟩
        rw [hf, descendN_succ,
          if_neg (by rw [qVal_nil, pVal_nil]; omega),
          if_pos (by rw [qVal_nil, pVal_nil]; omega)]
        rw [show leftD ([] : List ℕ) = [1] from by decide]
        rw [htoN]
        refine descend_main f p q [1] p q (by decide) (by decide)
          (by decide) hg ?_ hp1 ?_ hq1 (by omega)
        · rw [show ascLeft [1] = (0, 1) from by decide]
          omega
        · rw [show ascRight [1] = (1, 0) from by decide]
          omega
      · by_cases hazero : anc = [0]
        · subst hazero
          have hal : ascLeft [0] = (0, 1) := by decide
          have har : ascRight [0] = (1, 0) := by decide
          rw [hal, har] at hI
          simp only at hI
          have hp1 : 1 ≤ p := by omega
          obtain ⟨f, hf⟩ : ∃ f, p + q = f + 1 := ⟨p + q - 1, by omega⟩
          rw [hf, descendN_succ,
            if_neg (by
              rw [show qVal [0] = 1 from rfl, show pVal [0] = 0 from rfl]
              omega),
            if_neg (by
              rw [show qVal [0] = 1 from rfl, show pVal [0] = 0 from rfl]
              omega)]
          rw [show rightD [0] = [1] from by decide]
          rw [htoN]
          refine descend_main f p q [1] p q (by decide) (by decide)
            (by decide) hg ?_ hp1 ?_ hq1 (by omega)
          · rw [show ascLeft [1] = (0, 1) from by decide]
            omega
          · rw [show ascRight [1] = (1, 0) from by decide]
            omega
        · obtain ⟨hI1, hI2⟩ := hI
          have hI1' : q * (ascLeft anc).1 < p * (ascLeft anc).2 := by
            rw [Nat.mul_comm]
            exact hI1
          have hI2' : p * (ascRight anc).2 < q * (ascRight anc).1 := by
            rw [Nat.mul_comm q]
            exact hI2
          obtain ⟨a, ha, ha1⟩ : ∃ a,
              p * (ascLeft anc).2 = q * (ascLeft anc).1 + a ∧ 1 ≤ a :=
            ⟨p * (ascLeft anc).2 - q * (ascLeft anc).1, by omega, by omega⟩
          obtain ⟨b, hb, hb1⟩ : ∃ b,
              q * (ascRight anc).1 = p * (ascRight anc).2 + b ∧ 1 ≤ b :=
            ⟨q * (ascRight anc).1 - p * (ascRight anc).2, by omega, by omega⟩
          have hdet := ctx_det anc hca hanil hazero
          have hab := ab_le p q a b (ascLeft anc).1 (ascLeft anc).2
            (ascRight anc).1 (ascRight anc).2 hdet ha hb
          rw [htoN]
          exact descend_main (p + q) p q anc a b hca hanil hazero hg
            ha ha1 hb hb1 (by omega)

/-- The root `0/1` is a valid ancestor for every coprime target. -/
theorem valid_root (p q : ℕ) (hg : Nat.gcd p q = 1) : IsValidAnc p q [0] := by
  refine ⟨by decide, ?_⟩
  by_cases h10 : p = 1 ∧ q = 0
  · exact Or.inl (by rw [h10.1, h10.2])
  · by_cases h01 : p = 0
    · subst h01
      rw [Nat.gcd_zero_left] at hg
      subst hg
      exact Or.inr (Or.inl (by decide))
    · have hq1 : 1 ≤ q := by
        rcases Nat.eq_zero_or_pos q with h | h
        · subst h
          rw [Nat.gcd_zero_right] at hg
          exact absurd ⟨hg, rfl⟩ h10
        · exact h
      refine Or.inr (Or.inr ?_)
      rw [show ascLeft [0] = (0, 1) from by decide,
        show ascRight [0] = (1, 0) from by decide]
      simp only
      omega

/-- Modelled from the spec (§8, scenario 2): the continued-fraction
coefficient sequence of `p/q` computed independently by the standard
Euclidean algorithm, used as the reference for `cfrac`. -/
def euclidCF (p q : ℕ) : List ℕ :=
  if h : q = 0 then [] else (p / q) :: euclidCF q (p % q)
termination_by q
decreasing_by exact Nat.mod_lt _ (Nat.pos_of_ne_zero h)

theorem euclidCF_eq_cfE : ∀ q p : ℕ, euclidCF p q = cfE p q := by
  intro q
  induction q using Nat.strong_induction_on with
  | _ q ih =>
      intro p
      by_cases h : q = 0
      · subst h
        rw [euclidCF, cfE]
        simp
      · rw [euclidCF, cfE]
        simp only [dif_neg h]
        rw [ih (p % q) (Nat.mod_lt _ (Nat.pos_of_ne_zero h))]

/-- Modelled from the spec (§4.2 `even()`): depth parity. -/
def evenF (L : List ℕ) : Prop := Even (kOfL L)

/-- Modelled from the spec (§4.2 `odd()`): depth parity. -/
def oddF (L : List ℕ) : Prop := ¬ Even (kOfL L)

/-- Modelled from the spec (§3, §5): the global node store: the set of
already-constructed nodes together with the diagnostic counter
`nbFractions` of nodes ever created. -/
structure SBStore where
  nodes : List (List ℕ)
  nbFractions : ℕ

/-- Modelled from the spec (§4.1): `zeroOverOne()` returns the fixed handle
to the depth-0 sentinel `0/1` and never triggers construction: the store is
passed through unchanged. -/
def zeroOverOneS (s : SBStore) : List ℕ × SBStore := ([0], s)

/-- Modelled from the spec (§4.1): `oneOverZero()` returns the fixed handle
to the depth-0 sentinel `1/0` and never triggers construction. -/
def oneOverZeroS (s : SBStore) : List ℕ × SBStore := ([], s)

/-- Modelled from the header (`Fraction(Node* sb_node = 0)`): the
default-constructed handle references no node. -/
def nullFraction : Option (List ℕ) := none

/-- Modelled from the header: a handle built from a (non-null) node. -/
def fractionOfNode (n : List ℕ) : Option (List ℕ) := some n

/-- Modelled from the header (`null()`): true iff the handle references no
node. -/
def nullF (h : Option (List ℕ)) : Bool := h.isNone

/-- Modelled from the header (`operator==`): two handles are equal iff they
reference the same node (or are both null). -/
def eqF (h1 h2 : Option (List ℕ)) : Bool := decide (h1 = h2)

/-- `toNode` always agrees with the Euclidean expansion. -/
theorem toNode_eq_cfE (p q : ℕ) : toNode (p, q) = cfE p q := by
  unfold toNode
  by_cases h : q = 0
  · subst h
    rw [if_pos rfl, cfE_zero]
  · rw [if_neg h]

/-- Values of the canonical node of a coprime pair. -/
theorem value_toNode (x : ℕ × ℕ) (hg : Nat.gcd x.1 x.2 = 1) :
    pVal (toNode x) = x.1 ∧ qVal (toNode x) = x.2 := by
  obtain ⟨p, q⟩ := x
  unfold toNode
  by_cases h : q = 0
  · subst h
    rw [Nat.gcd_zero_right] at hg
    rw [if_pos rfl, hg]
    exact ⟨rfl, rfl⟩
  · rw [if_neg h]
    exact value_cfE q p (Nat.pos_of_ne_zero h) hg

/-- The canonical node of a coprime pair is canonical. -/
theorem canon_toNode (x : ℕ × ℕ) (hg : Nat.gcd x.1 x.2 = 1) :
    Canon (toNode x) := by
  obtain ⟨p, q⟩ := x
  unfold toNode
  by_cases h : q = 0
  · rw [if_pos h]
    exact ⟨fun x hx => by simp at hx, fun hl => by simp at hl⟩
  · rw [if_neg h]
    exact canon_cfE p q (Nat.pos_of_ne_zero h) hg

/-- Rebuilding a canonical list from its value is the identity. -/
theorem toNode_value (L : List ℕ) (hc : Canon L) :
    toNode (pVal L, qVal L) = L := by
  rcases eq_or_ne L [] with rfl | hne
  · rfl
  · unfold toNode
    rw [if_neg (by
      have := qVal_pos_canon L hc hne
      simp only
      omega)]
    exact cfE_value L hc hne

/-- `cfrac`'s ascent walk returns exactly the stored coefficients. -/
theorem cfracM_ne_nil (L : List ℕ) (h : L ≠ []) :
    cfracM L = cfracM L.dropLast ++ [L.getLastD 0] := by
  cases L with
  | nil => exact absurd rfl h
  | cons u L' => rw [cfracM]

theorem cfracM_eq_self (L : List ℕ) : cfracM L = L := by
  induction L using List.reverseRecOn with
  | nil => rw [cfracM]
  | append_singleton ys u ih =>
      rw [cfracM_ne_nil _ (by simp), List.dropLast_concat,
        List.getLastD_concat, ih]

/-- A unimodular pair consists of two irreducible fractions. -/
theorem gcd_of_det (l1 l2 r1 r2 : ℕ) (hdet : r1 * l2 = r2 * l1 + 1) :
    Nat.gcd l1 l2 = 1 ∧ Nat.gcd r1 r2 = 1 := by
  constructor
  · have h1 : Nat.gcd l1 l2 ∣ r1 * l2 :=
      Dvd.dvd.mul_left (Nat.gcd_dvd_right _ _) _
    have h2 : Nat.gcd l1 l2 ∣ r2 * l1 :=
      Dvd.dvd.mul_left (Nat.gcd_dvd_left _ _) _
    rw [hdet] at h1
    have h3 := Nat.dvd_sub' h1 h2
    rw [Nat.add_sub_cancel_left] at h3
    exact Nat.dvd_one.mp h3
  · have h1 : Nat.gcd r1 r2 ∣ r1 * l2 :=
      Dvd.dvd.mul_right (Nat.gcd_dvd_left _ _) _
    have h2 : Nat.gcd r1 r2 ∣ r2 * l1 :=
      Dvd.dvd.mul_right (Nat.gcd_dvd_right _ _) _
    rw [hdet] at h1
    have h3 := Nat.dvd_sub' h1 h2
    rw [Nat.add_sub_cancel_left] at h3
    exact Nat.dvd_one.mp h3

/-- Unfolding lemma for `father` on a nonempty list. -/
theorem father_concat (ys : List ℕ) (u : ℕ) :
    father (ys ++ [u]) =
      if 3 ≤ u ∨ ys.reverse = [] then ((u - 1) :: ys.reverse).reverse
      else
        match ys.reverse with
        | [] => [u - 1]
        | v :: zs => ((v + 1) :: zs).reverse := by
  unfold father
  rw [show (ys ++ [u]).reverse = u :: ys.reverse from by simp]

/-- `father` undoes `left`: the father of the left child is the node
itself. -/
theorem father_leftD (L : List ℕ) (hc : Canon L) (hne : L ≠ [])
    (h0 : L ≠ [0]) : father (leftD L) = L := by
  obtain ⟨ys, u', rfl⟩ := interior_decomp L hc hne h0
  rw [leftD_snoc]
  by_cases hpar : Even (ys ++ [u' + 1]).length
  · rw [if_pos hpar]
    have hysne : ys ≠ [] := by
      intro h
      rw [h] at hpar
      simp at hpar
    have hbig := last_big_of_ne_nil ys (u' + 1) hc hysne
    rw [father_concat, if_pos (Or.inl (by omega))]
    simp only [List.reverse_cons, List.reverse_reverse]
    rw [show u' + 1 + 1 - 1 = u' + 1 from by omega]
  · rw [if_neg hpar, show u' + 1 - 1 = u' from by omega, pair_snoc_snoc,
      father_concat,
      if_neg (by
        simp only [List.reverse_eq_nil_iff]
        push_neg
        exact ⟨by omega, by simp⟩)]
    rw [show (ys ++ [u']).reverse = u' :: ys.reverse from by simp]
    simp only [List.reverse_cons, List.reverse_reverse]

/-- `father` undoes `right`: the father of the right child is the node
itself. -/
theorem father_rightD (L : List ℕ) (hc : Canon L) (hne : L ≠ [])
    (h0 : L ≠ [0]) : father (rightD L) = L := by
  obtain ⟨ys, u', rfl⟩ := interior_decomp L hc hne h0
  rw [rightD_snoc]
  by_cases hpar : Even (ys ++ [u' + 1]).length
  · rw [if_pos hpar, show u' + 1 - 1 = u' from by omega, pair_snoc_snoc,
      father_concat,
      if_neg (by
        simp only [List.reverse_eq_nil_iff]
        push_neg
        exact ⟨by omega, by simp⟩)]
    rw [show (ys ++ [u']).reverse = u' :: ys.reverse from by simp]
    simp only [List.reverse_cons, List.reverse_reverse]
  · rw [if_neg hpar]
    have hu2 : 2 ≤ u' + 1 + 1 := by omega
    rw [father_concat, if_pos ?side]
    case side =>
      by_cases hysne : ys = []
      · exact Or.inr (by rw [hysne]; rfl)
      · exact Or.inl (by
          have := last_big_of_ne_nil ys (u' + 1) hc hysne
          omega)
    simp only [List.reverse_cons, List.reverse_reverse]
    rw [show u' + 1 + 1 - 1 = u' + 1 from by omega]

/-- Berstel reconstruction: the node is one copy of the previous previous
partial mediant-combined with `u()` copies of the previous partial. -/
theorem berstel_recon (L : List ℕ) (hc : Canon L) (hne : L ≠ [])
    (h0 : L ≠ [0]) :
    pVal L = prevNum L.dropLast + uOf L * prevNum L ∧
    qVal L = prevDen L.dropLast + uOf L * prevDen L := by
  obtain ⟨ys, u', rfl⟩ := interior_decomp L hc hne h0
  rw [pVal_snoc, qVal_snoc, prevNum_snoc, prevDen_snoc,
    List.dropLast_concat]
  unfold uOf
  rw [List.getLastD_concat]
  constructor <;> ring

/-- The parity of the list length decides the `even()` flag of an interior
node. -/
theorem evenF_iff (L : List ℕ) (hne : L ≠ []) :
    evenF L ↔ ¬ Even L.length := by
  unfold evenF kOfL
  rw [if_neg hne]
  rcases Nat.even_or_odd L.length with he | ho
  · constructor
    · intro h
      exfalso
      obtain ⟨m, hm⟩ := he
      obtain ⟨t, ht⟩ := h
      omega
    · intro h
      exact absurd he h
  · constructor
    · intro _
      rw [Nat.not_even_iff_odd]
      exact ho
    · intro _
      obtain ⟨m, hm⟩ := ho
      exact ⟨m, by omega⟩

instance (p q : ℕ) (anc : List ℕ) : Decidable (IsValidAnc p q anc) := by
  unfold IsValidAnc
  infer_instance

instance (L : List ℕ) : Decidable (evenF L) := by
  unfold evenF
  exact decidable_of_iff _ Int.even_iff.symm

/-- The inverse operation is an involution on canonical nodes. -/
theorem inverse_involution (L : List ℕ) (hc : Canon L) :
    inverseN (inverseN L) = L := by
  unfold inverseN
  obtain ⟨e1, e2⟩ := value_toNode (qVal L, pVal L)
    (by
      rw [Nat.gcd_comm]
      exact gcd_pVal_qVal L)
  rw [e1, e2]
  exact toNode_value L hc

/-- The constructed node of an interior coprime pair is canonical
interior. -/
theorem toNode_interior (p q : ℕ) (hp : 1 ≤ p) (hq : 1 ≤ q)
    (hg : Nat.gcd p q = 1) :
    Canon (toNode (p, q)) ∧ toNode (p, q) ≠ [] ∧ toNode (p, q) ≠ [0] := by
  obtain ⟨hvp, hvq⟩ := value_toNode (p, q) hg
  refine ⟨canon_toNode (p, q) hg, ?_, ?_⟩
  · intro h
    rw [h, qVal_nil] at hvq
    simp only at hvq
    omega
  · intro h
    rw [h, show pVal [0] = 0 from rfl] at hvp
    simp only at hvp
    omega

/-- `reduced(i)` coincides with `partial(k() - i)`. -/
theorem reducedN_eq_partialN (L : List ℕ) (i : ℤ) (h0 : 0 ≤ i) :
    reducedN L i = partialN L (kOfL L - i) := by
  unfold reducedN partialN kOfL
  rcases eq_or_ne L [] with rfl | hne
  · simp [List.take_nil]
  · rw [if_neg hne]
    rw [show ((L.length : ℤ) - 1 - i + 1).toNat = L.length - i.toNat from by
      omega]

/-- C1: for every pair of non-negative integers `p`, `q` with
`gcd(p, q) = 1`, the handle returned by `fraction(p, q)` with the default
ancestor `zeroOverOne()` (the node `[0]`) satisfies `p() == p` and
`q() == q`. -/
theorem claim1_fraction_value (p q : ℕ) (hg : Nat.gcd p q = 1) :
    pVal (fractionM p q [0]) = p ∧ qVal (fractionM p q [0]) = q := by
  rw [fraction_eq p q [0] hg (valid_root p q hg)]
  exact value_toNode (p, q) hg

theorem claim1_witness :
    Nat.gcd 5 3 = 1 ∧
      (pVal (fractionM 5 3 [0]) = 5 ∧ qVal (fractionM 5 3 [0]) = 3) :=
  ⟨by decide, claim1_fraction_value 5 3 (by decide)⟩

/-- C2: for every coprime pair `(p, q)` with `p, q ≥ 0`, two calls
`fraction(p, q)` with any valid ancestors return handles that compare equal
under `operator==` and reference the same underlying node: construction is
idempotent and never duplicates a node. -/
theorem claim2_fraction_idempotent (p q : ℕ) (anc1 anc2 : List ℕ)
    (hg : Nat.gcd p q = 1) (h1 : IsValidAnc p q anc1)
    (h2 : IsValidAnc p q anc2) :
    fractionM p q anc1 = fractionM p q anc2 ∧
    eqF (fractionOfNode (fractionM p q anc1))
      (fractionOfNode (fractionM p q anc2)) = true := by
  have e1 := fraction_eq p q anc1 hg h1
  have e2 := fraction_eq p q anc2 hg h2
  refine ⟨by rw [e1, e2], ?_⟩
  rw [e1, e2]
  exact decide_eq_true rfl

theorem claim2_witness :
    Nat.gcd 13 8 = 1 ∧ IsValidAnc 13 8 [0] ∧
      IsValidAnc 13 8 [1, 1, 1, 2] ∧
      (fractionM 13 8 [0] = fractionM 13 8 [1, 1, 1, 2] ∧
        eqF (fractionOfNode (fractionM 13 8 [0]))
          (fractionOfNode (fractionM 13 8 [1, 1, 1, 2])) = true) :=
  ⟨by decide, by decide, by decide,
    claim2_fraction_idempotent 13 8 [0] [1, 1, 1, 2] (by decide) (by decide)
      (by decide)⟩

/-- C3: for every constructed non-null fraction, `inverse()` (the node with
numerator and denominator swapped) is an involution. -/
theorem claim3_inverse_involution (p q : ℕ) (hg : Nat.gcd p q = 1) :
    inverseN (inverseN (fractionM p q [0])) = fractionM p q [0] := by
  rw [fraction_eq p q [0] hg (valid_root p q hg)]
  exact inverse_involution (toNode (p, q)) (canon_toNode (p, q) hg)

theorem claim3_witness :
    Nat.gcd 8 5 = 1 ∧
      inverseN (inverseN (fractionM 8 5 [0])) = fractionM 8 5 [0] :=
  ⟨by decide, claim3_inverse_involution 8 5 (by decide)⟩

/-- C4: for every fraction reachable via descent (the interior nodes
`p/q` with `p, q ≥ 1` built by `fraction`), `father()` is a left inverse of
both child constructors: `f.left().father() == f` and
`f.right().father() == f`. -/
theorem claim4_father_children (p q : ℕ) (hp : 1 ≤ p) (hq : 1 ≤ q)
    (hg : Nat.gcd p q = 1) :
    father (leftD (fractionM p q [0])) = fractionM p q [0] ∧
    father (rightD (fractionM p q [0])) = fractionM p q [0] := by
  rw [fraction_eq p q [0] hg (valid_root p q hg)]
  obtain ⟨hc, hne, h0⟩ := toNode_interior p q hp hq hg
  exact ⟨father_leftD _ hc hne h0, father_rightD _ hc hne h0⟩

theorem claim4_witness :
    (1 ≤ 5 ∧ 1 ≤ 3 ∧ Nat.gcd 5 3 = 1) ∧
      (father (leftD (fractionM 5 3 [0])) = fractionM 5 3 [0] ∧
        father (rightD (fractionM 5 3 [0])) = fractionM 5 3 [0]) :=
  ⟨by decide, claim4_father_children 5 3 (by decide) (by decide) (by decide)⟩

/-- C5: for every constructed fraction that is neither `0/1` nor `1/0`,
`getSplit` produces two fractions whose component-wise sums give back the
fraction: `f.p() == f1.p() + f2.p()` and `f.q() == f1.q() + f2.q()`. -/
theorem claim5_getSplit (p q : ℕ) (hp : 1 ≤ p) (hq : 1 ≤ q)
    (hg : Nat.gcd p q = 1) :
    pVal (fractionM p q [0]) =
      pVal (getSplitN (fractionM p q [0])).1 +
        pVal (getSplitN (fractionM p q [0])).2 ∧
    qVal (fractionM p q [0]) =
      qVal (getSplitN (fractionM p q [0])).1 +
        qVal (getSplitN (fractionM p q [0])).2 := by
  rw [fraction_eq p q [0] hg (valid_root p q hg)]
  obtain ⟨hc, hne, h0⟩ := toNode_interior p q hp hq hg
  obtain ⟨hm1, hm2⟩ := mediant_split _ hc hne h0
  have hdet := ctx_det _ hc hne h0
  obtain ⟨g1, g2⟩ := gcd_of_det _ _ _ _ hdet
  obtain ⟨hL1, hL2⟩ := value_toNode (ascLeft (toNode (p, q))) g1
  obtain ⟨hR1, hR2⟩ := value_toNode (ascRight (toNode (p, q))) g2
  unfold getSplitN
  simp only
  rw [hL1, hL2, hR1, hR2]
  exact ⟨hm1, hm2⟩

theorem claim5_witness :
    (1 ≤ 5 ∧ 1 ≤ 3 ∧ Nat.gcd 5 3 = 1) ∧
      (pVal (fractionM 5 3 [0]) =
          pVal (getSplitN (fractionM 5 3 [0])).1 +
            pVal (getSplitN (fractionM 5 3 [0])).2 ∧
        qVal (fractionM 5 3 [0]) =
          qVal (getSplitN (fractionM 5 3 [0])).1 +
            qVal (getSplitN (fractionM 5 3 [0])).2) :=
  ⟨by decide, claim5_getSplit 5 3 (by decide) (by decide) (by decide)⟩

/-- C6 (counterexample): at `fraction(1, 1)` — a split-eligible fraction,
neither `0/1` nor `1/0`, with even depth — `getSplitBerstel` returns
`nb1 = 1` and `nb2 = u() = 1`, so both multiplicities equal 1 and the
claim's "exactly one equals 1" fails. -/
theorem claim6_counterexample :
    pVal (fractionM 1 1 [0]) = 1 ∧ qVal (fractionM 1 1 [0]) = 1 ∧
    evenF (fractionM 1 1 [0]) ∧
    (getSplitBerstelN (fractionM 1 1 [0])).2.1 = 1 ∧
    (getSplitBerstelN (fractionM 1 1 [0])).2.2.2 = 1 ∧
    ¬ (((getSplitBerstelN (fractionM 1 1 [0])).2.1 = 1 ∧
          (getSplitBerstelN (fractionM 1 1 [0])).2.2.2 ≠ 1) ∨
       ((getSplitBerstelN (fractionM 1 1 [0])).2.1 ≠ 1 ∧
          (getSplitBerstelN (fractionM 1 1 [0])).2.2.2 = 1)) := by
  refine ⟨by decide, by decide, ?_, by decide, by decide, by decide⟩
  unfold evenF
  rw [show kOfL (fractionM 1 1 [0]) = 0 from by decide]
  exact even_zero

/-- Components of the Berstel split when the depth is even. -/
theorem berstel_even (L : List ℕ) (hev : Even (kOfL L)) :
    (getSplitBerstelN L).1 = toNode (prevPair L.dropLast) ∧
    (getSplitBerstelN L).2.1 = 1 ∧
    (getSplitBerstelN L).2.2.1 = toNode (prevPair L) ∧
    (getSplitBerstelN L).2.2.2 = uOf L := by
  unfold getSplitBerstelN
  rw [if_pos hev]
  exact ⟨rfl, rfl, rfl, rfl⟩

/-- Components of the Berstel split when the depth is odd. -/
theorem berstel_odd (L : List ℕ) (hodd : ¬ Even (kOfL L)) :
    (getSplitBerstelN L).1 = toNode (prevPair L) ∧
    (getSplitBerstelN L).2.1 = uOf L ∧
    (getSplitBerstelN L).2.2.1 = toNode (prevPair L.dropLast) ∧
    (getSplitBerstelN L).2.2.2 = 1 := by
  unfold getSplitBerstelN
  rw [if_neg hodd]
  exact ⟨rfl, rfl, rfl, rfl⟩

/-- Every constructed interior fraction other than `1/1` stores a last
quotient `u()` of at least 2. -/
theorem uOf_ge_two (p q : ℕ) (hp : 1 ≤ p) (hq : 1 ≤ q)
    (hg : Nat.gcd p q = 1) (hne11 : (p, q) ≠ (1, 1)) :
    2 ≤ uOf (toNode (p, q)) := by
  obtain ⟨hc, hne, h0⟩ := toNode_interior p q hp hq hg
  obtain ⟨hvp, hvq⟩ := value_toNode (p, q) hg
  obtain ⟨ys, u', hdec⟩ := interior_decomp _ hc hne h0
  unfold uOf
  rw [hdec, List.getLastD_concat]
  by_cases hys : ys = []
  · subst hys
    rw [List.nil_append] at hdec
    rw [hdec] at hvp hvq
    have hp' : pVal [u' + 1] = u' + 1 := by
      rw [pVal_cons]
      simp
    have hq' : qVal [u' + 1] = 1 := rfl
    rw [hp'] at hvp
    rw [hq'] at hvq
    simp only at hvp hvq
    rcases Nat.eq_zero_or_pos u' with h | h
    · have hp1 : p = 1 := by omega
      have hq1 : q = 1 := by omega
      exact absurd (by rw [hp1, hq1]) hne11
    · omega
  · have := last_big_of_ne_nil ys (u' + 1) (hdec ▸ hc) hys
    omega

/-- C6 (amended): for every split-eligible constructed fraction,
`getSplitBerstel` yields `nb1 = 1` when `even()` and `nb2 = 1` when
`odd()`, with the other multiplicity equal to `u()`; `nb1` copies of `f1`
mediant-combined with `nb2` copies of `f2` reconstruct the numerator and
denominator; and for every such fraction other than `1/1` exactly one of
`nb1`, `nb2` equals 1 (at `1/1`, where `u() = 1`, both equal 1). -/
theorem claim6_berstel (p q : ℕ) (hp : 1 ≤ p) (hq : 1 ≤ q)
    (hg : Nat.gcd p q = 1) :
    (evenF (fractionM p q [0]) →
      (getSplitBerstelN (fractionM p q [0])).2.1 = 1 ∧
      (getSplitBerstelN (fractionM p q [0])).2.2.2 =
        uOf (fractionM p q [0])) ∧
    (oddF (fractionM p q [0]) →
      (getSplitBerstelN (fractionM p q [0])).2.2.2 = 1 ∧
      (getSplitBerstelN (fractionM p q [0])).2.1 =
        uOf (fractionM p q [0])) ∧
    pVal (fractionM p q [0]) =
      (getSplitBerstelN (fractionM p q [0])).2.1 *
          pVal (getSplitBerstelN (fractionM p q [0])).1 +
        (getSplitBerstelN (fractionM p q [0])).2.2.2 *
          pVal (getSplitBerstelN (fractionM p q [0])).2.2.1 ∧
    qVal (fractionM p q [0]) =
      (getSplitBerstelN (fractionM p q [0])).2.1 *
          qVal (getSplitBerstelN (fractionM p q [0])).1 +
        (getSplitBerstelN (fractionM p q [0])).2.2.2 *
          qVal (getSplitBerstelN (fractionM p q [0])).2.2.1 ∧
    ((p, q) ≠ (1, 1) →
      ((getSplitBerstelN (fractionM p q [0])).2.1 = 1 ∧
        (getSplitBerstelN (fractionM p q [0])).2.2.2 ≠ 1) ∨
      ((getSplitBerstelN (fractionM p q [0])).2.1 ≠ 1 ∧
        (getSplitBerstelN (fractionM p q [0])).2.2.2 = 1)) := by
  rw [fraction_eq p q [0] hg (valid_root p q hg)]
  obtain ⟨hc, hne, h0⟩ := toNode_interior p q hp hq hg
  obtain ⟨hr1, hr2⟩ := berstel_recon _ hc hne h0
  obtain ⟨hP1, hP2⟩ := value_toNode (prevPair (toNode (p, q)))
    (gcd_prevNum_prevDen _)
  obtain ⟨hQ1, hQ2⟩ := value_toNode (prevPair (toNode (p, q)).dropLast)
    (gcd_prevNum_prevDen _)
  by_cases hev : Even (kOfL (toNode (p, q)))
  · obtain ⟨e1, e2, e3, e4⟩ := berstel_even (toNode (p, q)) hev
    rw [e1, e2, e3, e4]
    refine ⟨fun _ => ⟨rfl, rfl⟩, fun hodd => absurd hev hodd, ?_, ?_, ?_⟩
    · rw [hP1, hQ1]
      unfold prevPair
      simp only
      omega
    · rw [hP2, hQ2]
      unfold prevPair
      simp only
      omega
    · intro hne11
      have hu2 := uOf_ge_two p q hp hq hg hne11
      exact Or.inl ⟨rfl, by omega⟩
  · obtain ⟨e1, e2, e3, e4⟩ := berstel_odd (toNode (p, q)) hev
    rw [e1, e2, e3, e4]
    refine ⟨fun hev2 => absurd hev2 hev, fun _ => ⟨rfl, rfl⟩, ?_, ?_, ?_⟩
    · rw [hP1, hQ1]
      unfold prevPair
      simp only
      omega
    · rw [hP2, hQ2]
      unfold prevPair
      simp only
      omega
    · intro hne11
      have hu2 := uOf_ge_two p q hp hq hg hne11
      exact Or.inr ⟨by omega, rfl⟩

theorem claim6_witness :
    (1 ≤ 5 ∧ 1 ≤ 3 ∧ Nat.gcd 5 3 = 1) ∧
      ((evenF (fractionM 5 3 [0]) →
          (getSplitBerstelN (fractionM 5 3 [0])).2.1 = 1 ∧
          (getSplitBerstelN (fractionM 5 3 [0])).2.2.2 =
            uOf (fractionM 5 3 [0])) ∧
        (oddF (fractionM 5 3 [0]) →
          (getSplitBerstelN (fractionM 5 3 [0])).2.2.2 = 1 ∧
          (getSplitBerstelN (fractionM 5 3 [0])).2.1 =
            uOf (fractionM 5 3 [0])) ∧
        pVal (fractionM 5 3 [0]) =
          (getSplitBerstelN (fractionM 5 3 [0])).2.1 *
              pVal (getSplitBerstelN (fractionM 5 3 [0])).1 +
            (getSplitBerstelN (fractionM 5 3 [0])).2.2.2 *
              pVal (getSplitBerstelN (fractionM 5 3 [0])).2.2.1 ∧
        qVal (fractionM 5 3 [0]) =
          (getSplitBerstelN (fractionM 5 3 [0])).2.1 *
              qVal (getSplitBerstelN (fractionM 5 3 [0])).1 +
            (getSplitBerstelN (fractionM 5 3 [0])).2.2.2 *
              qVal (getSplitBerstelN (fractionM 5 3 [0])).2.2.1 ∧
        (((5 : ℕ), (3 : ℕ)) ≠ (1, 1) →
          ((getSplitBerstelN (fractionM 5 3 [0])).2.1 = 1 ∧
            (getSplitBerstelN (fractionM 5 3 [0])).2.2.2 ≠ 1) ∨
          ((getSplitBerstelN (fractionM 5 3 [0])).2.1 ≠ 1 ∧
            (getSplitBerstelN (fractionM 5 3 [0])).2.2.2 = 1))) :=
  ⟨by decide, claim6_berstel 5 3 (by decide) (by decide) (by decide)⟩

/-- C7: the quotient sequence produced by `cfrac` on `fraction(p, q)`
equals the continued-fraction coefficient sequence of `p/q` computed
independently by the standard Euclidean algorithm. -/
theorem claim7_cfrac (p q : ℕ) (hg : Nat.gcd p q = 1) :
    cfracM (fractionM p q [0]) = euclidCF p q := by
  rw [fraction_eq p q [0] hg (valid_root p q hg), cfracM_eq_self,
    toNode_eq_cfE, euclidCF_eq_cfE]

theorem claim7_witness :
    Nat.gcd 5 3 = 1 ∧ euclidCF 5 3 = [1, 1, 2] ∧
      cfracM (fractionM 5 3 [0]) = euclidCF 5 3 :=
  ⟨by decide, by
    rw [euclidCF_eq_cfE, ← toNode_eq_cfE,
      ← fraction_eq 5 3 [0] (by decide) (valid_root 5 3 (by decide))]
    decide, claim7_cfrac 5 3 (by decide)⟩

/-- C8: for every constructed fraction `f` and every integer `i` with
`0 ≤ i ≤ f.k() + 2`, `reduced(i)` returns the same fraction as
`partial(f.k() - i)`: the bound `k() + 2`, which makes the partial depth
negative for `i = k() + 1` and `i = k() + 2`, is honored (both sides fall
back to the sentinel prefix). -/
theorem claim8_reduced (p q : ℕ) (i : ℤ) (hg : Nat.gcd p q = 1)
    (h0 : 0 ≤ i) (hk : i ≤ kOfL (fractionM p q [0]) + 2) :
    reducedN (fractionM p q [0]) i =
      partialN (fractionM p q [0]) (kOfL (fractionM p q [0]) - i) :=
  reducedN_eq_partialN (fractionM p q [0]) i h0

theorem claim8_witness :
    (Nat.gcd 5 3 = 1 ∧ 0 ≤ (4 : ℤ) ∧
        (4 : ℤ) ≤ kOfL (fractionM 5 3 [0]) + 2) ∧
      reducedN (fractionM 5 3 [0]) 4 =
        partialN (fractionM 5 3 [0]) (kOfL (fractionM 5 3 [0]) - 4) :=
  ⟨by decide, claim8_reduced 5 3 4 (by decide) (by decide) (by decide)⟩

/-- C9: `zeroOverOne()` returns a handle with `p() == 0`, `q() == 1`,
`oneOverZero()` a handle with `p() == 1`, `q() == 0`, both at depth 0, and
calling either accessor never creates a node: the global counter
`nbFractions` is unchanged. -/
theorem claim9_root_accessors (s : SBStore) :
    (zeroOverOneS s).2.nbFractions = s.nbFractions ∧
    (oneOverZeroS s).2.nbFractions = s.nbFractions ∧
    pVal (zeroOverOneS s).1 = 0 ∧ qVal (zeroOverOneS s).1 = 1 ∧
    kOfL (zeroOverOneS s).1 = 0 ∧
    pVal (oneOverZeroS s).1 = 1 ∧ qVal (oneOverZeroS s).1 = 0 ∧
    kOfL (oneOverZeroS s).1 = 0 :=
  ⟨rfl, rfl, rfl, rfl, by norm_num [zeroOverOneS, kOfL], rfl, rfl, rfl⟩

/-- C10: a default-constructed `Fraction` handle is the null fraction:
`null()` is true on it, it compares equal under `operator==` exactly to
null handles, and a handle constructed from a node has `null() == false`. -/
theorem claim10_null_handle :
    nullF nullFraction = true ∧
    (∀ n : List ℕ, nullF (fractionOfNode n) = false) ∧
    (∀ h : Option (List ℕ), eqF nullFraction h = true ↔ h = nullFraction) := by
  refine ⟨rfl, fun n => rfl, fun h => ?_⟩
  unfold eqF nullFraction
  constructor
  · intro he
    exact (of_decide_eq_true he).symm
  · intro he
    subst he
    exact decide_eq_true rfl

end SBT
